import Mathlib

/-!
Shallow embedding of the `hash_histogram` Rust crate (`src/src/lib.rs`).

The `HashMap<T, C>` inside `HashHistogram` is modelled as an association
list `List (K × C)`; the list order stands for the map's (unspecified)
iteration order, and reachable maps have pairwise distinct keys.  The
generic counter type `C : CounterType` is modelled by an explicit
dictionary `CounterOps` holding the operations the Rust trait bounds give
(`Zero`, `One`, `AddAssign`, `PartialOrd`), with
`pcmp : C → C → Option Ordering` playing the role of `partial_cmp`.
`ArithOps` adds the `Mul` (implied by `num::One`) and `Div` that
`normalize` requires.
-/

set_option linter.unusedSectionVars false

namespace HashHist

structure CounterOps (C : Type) where
  zero : C
  one : C
  add : C → C → C
  pcmp : C → C → Option Ordering

structure ArithOps (C : Type) extends CounterOps C where
  mul : C → C → C
  div : C → C → C

variable {K C : Type} [DecidableEq K]

/-- The `histogram: HashMap<T, C>` field, as an association list in
iteration order. -/
abbrev Hist (K C : Type) := List (K × C)

/-- The map's key set, in iteration order. -/
def keys (hist : Hist K C) : List K := hist.map Prod.fst

/-- `HashMap::get_mut` followed by a write: update the (first, and in a
well-formed map only) entry holding `k`. -/
def updateFirst (f : C → C) : Hist K C → K → Hist K C
  | [], _ => []
  | p :: rest, k => if p.1 = k then (p.1, f p.2) :: rest else p :: updateFirst f rest k

/-- `HashHistogram::bump_by` (lib.rs:229-238): if the key is present add
`increment` to its counter in place, otherwise insert the key with value
`increment`. -/
def bump_by (ops : CounterOps C) (hist : Hist K C) (item : K) (increment : C) : Hist K C :=
  if item ∈ keys hist then updateFirst (fun c => ops.add c increment) hist item
  else hist ++ [(item, increment)]

/-- `HashHistogram::bump` (lib.rs:225-227): `bump_by` with `num::one()`. -/
def bump (ops : CounterOps C) (hist : Hist K C) (item : K) : Hist K C :=
  bump_by ops hist item ops.one

/-- `HashHistogram::count` (lib.rs:240-242): the stored counter, or
`num::zero()` when the key is absent. -/
def count (ops : CounterOps C) (hist : Hist K C) (item : K) : C :=
  match hist.find? (fun p => decide (p.1 = item)) with
  | some p => p.2
  | none => ops.zero

/-- `HashHistogram::len` (lib.rs:244-246). -/
def len (hist : Hist K C) : Nat := hist.length

/-- `HashHistogram::total_count` (lib.rs:279-281): `Sum` over the values
in iteration order, i.e. a left fold of `+` from zero. -/
def total_count (ops : CounterOps C) (hist : Hist K C) : C :=
  hist.foldl (fun acc p => ops.add acc p.2) ops.zero

/-- The comparator of `ranking_with_counts` (lib.rs:269),
`c2.partial_cmp(c1).unwrap_or(Ordering::Equal)`, rendered as the
`le` predicate the sort consumes: entry `p` may precede entry `q` iff the
comparator does not place `p` after `q`. -/
def descLe (ops : CounterOps C) (p q : K × C) : Bool :=
  ((ops.pcmp q.2 p.2).getD Ordering.eq) != Ordering.gt

/-- Stable insertion into a sorted list: `x` goes in front of the first
element it may precede. -/
def insertLe (le : α → α → Bool) (x : α) : List α → List α
  | [] => [x]
  | y :: l => if le x y then x :: y :: l else y :: insertLe le x l

/-- Stable sort by the `le` predicate.  `Vec::sort_by` is specified only
as A stable sort by the comparator; for comparators arising from a total
preorder every stable sort produces the same list, so this structurally
recursive stable sort is a faithful model of it. -/
def sortLe (le : α → α → Bool) : List α → List α
  | [] => []
  | x :: l => insertLe le x (sortLe le l)

/-- `HashHistogram::ranking_with_counts` (lib.rs:267-271): collect the
entries and stable-sort them descending by counter, incomparable counters
treated as equal. -/
def ranking_with_counts (ops : CounterOps C) (hist : Hist K C) : Hist K C :=
  sortLe (descLe ops) hist

/-- `HashHistogram::ranking` (lib.rs:260-265): the key projection of
`ranking_with_counts`. -/
def ranking (ops : CounterOps C) (hist : Hist K C) : List K :=
  (ranking_with_counts ops hist).map Prod.fst

/-- One reduction step of `Iterator::max_by` with comparator
`c1.partial_cmp(c2).unwrap_or(Ordering::Equal)`: keep the later element
`p` unless it compares strictly `Less` than the accumulated maximum. -/
def maxStep (ops : CounterOps C) (acc : Option (K × C)) (p : K × C) : Option (K × C) :=
  match acc with
  | none => some p
  | some m =>
    if (ops.pcmp p.2 m.2).getD Ordering.eq = Ordering.lt then some m else some p

/-- `HashHistogram::mode` (lib.rs:273-277): reduce the entries with
`max_by`, then project the key. -/
def mode (ops : CounterOps C) (hist : Hist K C) : Option K :=
  (hist.foldl (maxStep ops) none).map Prod.fst

/-- `impl AddAssign<&HashHistogram>` (lib.rs:284-290): `bump_by` the
left operand with every entry of the right operand. -/
def add_assign (ops : CounterOps C) (lhs rhs : Hist K C) : Hist K C :=
  rhs.foldl (fun acc p => bump_by ops acc p.1 p.2) lhs

/-- `impl Extend<&T>` (lib.rs:347-353): `bump` every item. -/
def extend (ops : CounterOps C) (hist : Hist K C) (items : List K) : Hist K C :=
  items.foldl (bump ops) hist

/-- `impl Extend<&(T, C)>` (lib.rs:355-361): `bump_by` every pair. -/
def extend_pairs (ops : CounterOps C) (hist : Hist K C) (pairs : List (K × C)) : Hist K C :=
  pairs.foldl (fun acc p => bump_by ops acc p.1 p.2) hist

/-- `HashHistogram::normalize` (lib.rs:296-301): take the total first,
then rescale every value to `value * target_total / total`. -/
def normalize (ops : ArithOps C) (hist : Hist K C) (target_total : C) : Hist K C :=
  let total := total_count ops.toCounterOps hist
  hist.map (fun p => (p.1, ops.div (ops.mul p.2 target_total) total))

/-- The scan loop of `pick_random_key` (lib.rs:407-412): accumulate the
weights; return the current key as soon as the running total is strictly
greater (`PartialOrd::gt`, i.e. `partial_cmp = Some(Greater)`) than the
drawn value.  `none` is the `panic!` after the loop. -/
def pickScan (ops : CounterOps C) : Hist K C → C → C → Option K
  | [], _, _ => none
  | (k, w) :: rest, choice, total =>
    let t := ops.add total w
    if ops.pcmp t choice = some Ordering.gt then some k else pickScan ops rest choice t

/-- `HashHistogram::pick_random_key` (lib.rs:402-415), with the drawn
value `choice` made an explicit argument.  `none` models a fault: either
the failed `assert!(self.len() > 0)` or the terminal `panic!`. -/
def pick_random_key (ops : CounterOps C) (hist : Hist K C) (choice : C) : Option K :=
  if 0 < len hist then pickScan ops hist choice ops.zero else none

/-- The concrete `usize`/integer instantiation of the counter bounds. -/
def natOps : CounterOps Nat :=
  { zero := 0, one := 1, add := Nat.add, pcmp := fun a b => some (compare a b) }

/-- Integer arithmetic for `normalize`: Rust integer `/` truncates. -/
def natArith : ArithOps Nat :=
  { toCounterOps := natOps, mul := Nat.mul, div := Nat.div }

/-- The rescaling loop of `normalize` at an integer counter type, with
Rust's division semantics made explicit: integer division by zero panics,
modelled as `none`.  One division per existing entry. -/
def normLoop (total target : Nat) : Hist K Nat → Option (Hist K Nat)
  | [] => some []
  | p :: rest =>
    if total = 0 then none
    else (normLoop total target rest).map (fun tl => (p.1, p.2 * target / total) :: tl)

/-- `normalize` at an integer counter type: take the total first, then
run the rescaling loop.  An empty histogram runs the loop zero times and
performs no division at all. -/
def normalizeNatChecked (hist : Hist K Nat) (target_total : Nat) : Option (Hist K Nat) :=
  let total := total_count natOps hist
  normLoop total target_total hist

/-- A single public increment operation, for stating properties of
arbitrary operation sequences. -/
inductive Op (K C : Type) where
  | bump (k : K)
  | bumpBy (k : K) (amount : C)

/-- Run one operation on a histogram. -/
def applyOp (ops : CounterOps C) (hist : Hist K C) : Op K C → Hist K C
  | .bump k => bump ops hist k
  | .bumpBy k a => bump_by ops hist k a

/-- Run a sequence of operations left to right. -/
def applyOps (ops : CounterOps C) (hist : Hist K C) (l : List (Op K C)) : Hist K C :=
  l.foldl (applyOp ops) hist

/-- The increment amount an operation applies: `one` for `bump`. -/
def amount (ops : CounterOps C) : Op K C → C
  | .bump _ => ops.one
  | .bumpBy _ a => a

/-- Left-fold sum of a list of counters from zero, as `Sum` does. -/
def sumC (ops : CounterOps C) (l : List C) : C :=
  l.foldl ops.add ops.zero

/-! ### Basic lemmas about `count`, `keys` and `updateFirst` -/

theorem count_nil (ops : CounterOps C) (k : K) : count ops ([] : Hist K C) k = ops.zero := rfl

theorem count_cons (ops : CounterOps C) (p : K × C) (rest : Hist K C) (k : K) :
    count ops (p :: rest) k = if p.1 = k then p.2 else count ops rest k := by
  by_cases h : p.1 = k
  · simp [count, List.find?_cons, h]
  · simp [count, List.find?_cons, h]

theorem count_of_not_mem (ops : CounterOps C) {hist : Hist K C} {k : K}
    (h : k ∉ keys hist) : count ops hist k = ops.zero := by
  induction hist with
  | nil => rfl
  | cons p rest ih =>
    simp only [keys, List.map_cons, List.mem_cons, not_or] at h
    rw [count_cons, if_neg (fun e => h.1 e.symm)]
    exact ih h.2

theorem count_of_mem (ops : CounterOps C) {hist : Hist K C} {k : K} {c : C}
    (hnd : (keys hist).Nodup) (hmem : (k, c) ∈ hist) : count ops hist k = c := by
  induction hist with
  | nil => cases hmem
  | cons p rest ih =>
    rw [keys, List.map_cons, List.nodup_cons] at hnd
    rw [count_cons]
    rcases List.mem_cons.mp hmem with h | h
    · cases h; simp
    · have hne : p.1 ≠ k := by
        intro e
        exact hnd.1 (e ▸ List.mem_map_of_mem Prod.fst h)
      rw [if_neg hne]
      exact ih hnd.2 h

theorem count_append (ops : CounterOps C) (l1 l2 : Hist K C) (k : K) :
    count ops (l1 ++ l2) k = if k ∈ keys l1 then count ops l1 k else count ops l2 k := by
  induction l1 with
  | nil => simp [keys]
  | cons p rest ih =>
    by_cases h : p.1 = k
    · have hk : k ∈ keys (p :: rest) := by
        simp only [keys, List.map_cons, List.mem_cons]
        exact Or.inl h.symm
      rw [List.cons_append, count_cons, if_pos h, if_pos hk, count_cons, if_pos h]
    · have hmem : k ∈ keys (p :: rest) ↔ k ∈ keys rest := by
        simp only [keys, List.map_cons, List.mem_cons]
        exact or_iff_right (fun e => h e.symm)
      by_cases hk : k ∈ keys rest
      · rw [List.cons_append, count_cons, if_neg h, ih, if_pos hk, if_pos (hmem.mpr hk),
          count_cons, if_neg h]
      · rw [List.cons_append, count_cons, if_neg h, ih, if_neg hk,
          if_neg (fun hx => hk (hmem.mp hx))]

theorem keys_updateFirst (f : C → C) (hist : Hist K C) (k : K) :
    keys (updateFirst f hist k) = keys hist := by
  induction hist with
  | nil => rfl
  | cons p rest ih =>
    rw [updateFirst]
    split
    · rfl
    · simp only [keys, List.map_cons]
      exact congrArg (p.1 :: ·) ih

theorem length_updateFirst (f : C → C) (hist : Hist K C) (k : K) :
    (updateFirst f hist k).length = hist.length := by
  induction hist with
  | nil => rfl
  | cons p rest ih =>
    rw [updateFirst]
    split
    · rfl
    · simpa using ih

theorem count_updateFirst_self (ops : CounterOps C) (f : C → C) {hist : Hist K C} {k : K}
    (h : k ∈ keys hist) :
    count ops (updateFirst f hist k) k = f (count ops hist k) := by
  induction hist with
  | nil => cases h
  | cons p rest ih =>
    rw [updateFirst]
    by_cases hp : p.1 = k
    · rw [if_pos hp, count_cons, count_cons, if_pos hp, if_pos hp]
    · have hmem : k ∈ keys rest := by
        simp only [keys, List.map_cons, List.mem_cons] at h
        exact h.resolve_left (fun e => hp e.symm)
      rw [if_neg hp, count_cons, count_cons, if_neg hp, if_neg hp]
      exact ih hmem

theorem count_updateFirst_ne (ops : CounterOps C) (f : C → C) (hist : Hist K C) {k k' : K}
    (h : k' ≠ k) :
    count ops (updateFirst f hist k) k' = count ops hist k' := by
  induction hist with
  | nil => rfl
  | cons p rest ih =>
    rw [updateFirst]
    by_cases hp : p.1 = k
    · have : p.1 ≠ k' := fun e => h (e ▸ hp ▸ rfl)
      rw [if_pos hp, count_cons, count_cons, if_neg this, if_neg this]
    · rw [if_neg hp, count_cons, count_cons, ih]

/-! ### Lemmas about `bump_by` -/

theorem keys_bump_by (ops : CounterOps C) (hist : Hist K C) (k : K) (a : C) :
    keys (bump_by ops hist k a)
      = if k ∈ keys hist then keys hist else keys hist ++ [k] := by
  rw [bump_by]
  by_cases h : k ∈ keys hist
  · rw [if_pos h, if_pos h, keys_updateFirst]
  · rw [if_neg h, if_neg h, keys, List.map_append]
    rfl

theorem keys_subset_bump_by (ops : CounterOps C) (hist : Hist K C) (k : K) (a : C) :
    keys hist ⊆ keys (bump_by ops hist k a) := by
  rw [keys_bump_by]
  split
  · exact fun x hx => hx
  · exact List.subset_append_left _ _

theorem len_le_bump_by (ops : CounterOps C) (hist : Hist K C) (k : K) (a : C) :
    len hist ≤ len (bump_by ops hist k a) := by
  rw [bump_by]
  by_cases h : k ∈ keys hist
  · rw [if_pos h]
    exact Nat.le_of_eq (length_updateFirst _ _ _).symm
  · rw [if_neg h]
    simp [len]

theorem bump_by_of_not_mem (ops : CounterOps C) {hist : Hist K C} {k : K} (a : C)
    (h : k ∉ keys hist) : bump_by ops hist k a = hist ++ [(k, a)] := by
  rw [bump_by, if_neg h]

theorem count_bump_by_self (ops : CounterOps C) (hZl : ∀ a, ops.add ops.zero a = a)
    (hist : Hist K C) (k : K) (a : C) :
    count ops (bump_by ops hist k a) k = ops.add (count ops hist k) a := by
  rw [bump_by]
  by_cases h : k ∈ keys hist
  · rw [if_pos h, count_updateFirst_self ops _ h]
  · rw [if_neg h, count_append, if_neg h, count_of_not_mem ops h, count_cons, if_pos rfl,
      hZl]

theorem count_bump_by_ne (ops : CounterOps C) (hist : Hist K C) {k k' : K} (a : C)
    (h : k' ≠ k) :
    count ops (bump_by ops hist k a) k' = count ops hist k' := by
  rw [bump_by]
  by_cases hm : k ∈ keys hist
  · rw [if_pos hm, count_updateFirst_ne ops _ hist h]
  · rw [if_neg hm, count_append]
    split
    · rfl
    · next hk' =>
      rw [count_cons, if_neg (fun e => h e.symm), count_nil, count_of_not_mem ops hk']

/-! ### Sums of counters (the hypotheses are the monoid laws every Rust
`CounterType` instance satisfies) -/

theorem foldl_add_eq (ops : CounterOps C)
    (hA : ∀ a b c, ops.add (ops.add a b) c = ops.add a (ops.add b c))
    (hC : ∀ a b, ops.add a b = ops.add b a)
    (hZ : ∀ a, ops.add ops.zero a = a) :
    ∀ (l : List C) (x : C), l.foldl ops.add x = ops.add x (sumC ops l) := by
  intro l
  induction l with
  | nil =>
    intro x
    rw [List.foldl_nil, sumC, List.foldl_nil, hC, hZ]
  | cons c l ih =>
    intro x
    have hsum : sumC ops (c :: l) = ops.add c (sumC ops l) := by
      rw [sumC, List.foldl_cons, ih, hZ]
    rw [List.foldl_cons, ih, hA, hsum]

theorem sumC_cons (ops : CounterOps C)
    (hA : ∀ a b c, ops.add (ops.add a b) c = ops.add a (ops.add b c))
    (hC : ∀ a b, ops.add a b = ops.add b a)
    (hZ : ∀ a, ops.add ops.zero a = a) (c : C) (l : List C) :
    sumC ops (c :: l) = ops.add c (sumC ops l) := by
  rw [sumC, List.foldl_cons, foldl_add_eq ops hA hC hZ, hZ]

theorem sumC_append (ops : CounterOps C)
    (hA : ∀ a b c, ops.add (ops.add a b) c = ops.add a (ops.add b c))
    (hC : ∀ a b, ops.add a b = ops.add b a)
    (hZ : ∀ a, ops.add ops.zero a = a) (l1 l2 : List C) :
    sumC ops (l1 ++ l2) = ops.add (sumC ops l1) (sumC ops l2) := by
  rw [sumC, List.foldl_append, foldl_add_eq ops hA hC hZ]
  rfl

theorem total_count_eq_sumC (ops : CounterOps C) (hist : Hist K C) :
    total_count ops hist = sumC ops (hist.map Prod.snd) := by
  rw [sumC, List.foldl_map]
  rfl

theorem total_count_updateFirst (ops : CounterOps C)
    (hA : ∀ a b c, ops.add (ops.add a b) c = ops.add a (ops.add b c))
    (hC : ∀ a b, ops.add a b = ops.add b a)
    (hZ : ∀ a, ops.add ops.zero a = a) (a : C) :
    ∀ (hist : Hist K C) (k : K), k ∈ keys hist →
      total_count ops (updateFirst (fun c => ops.add c a) hist k)
        = ops.add (total_count ops hist) a := by
  intro hist
  induction hist with
  | nil => intro k h; cases h
  | cons p rest ih =>
    intro k h
    rw [updateFirst]
    by_cases hp : p.1 = k
    · rw [if_pos hp, total_count_eq_sumC, total_count_eq_sumC, List.map_cons, List.map_cons,
        sumC_cons ops hA hC hZ, sumC_cons ops hA hC hZ, hA, hC a, ← hA]
    · have hmem : k ∈ keys rest := by
        simp only [keys, List.map_cons, List.mem_cons] at h
        exact h.resolve_left (fun e => hp e.symm)
      rw [if_neg hp, total_count_eq_sumC, total_count_eq_sumC, List.map_cons, List.map_cons,
        sumC_cons ops hA hC hZ, sumC_cons ops hA hC hZ,
        ← total_count_eq_sumC, ← total_count_eq_sumC, ih k hmem, ← hA]

theorem total_count_bump_by (ops : CounterOps C)
    (hA : ∀ a b c, ops.add (ops.add a b) c = ops.add a (ops.add b c))
    (hC : ∀ a b, ops.add a b = ops.add b a)
    (hZ : ∀ a, ops.add ops.zero a = a) (hist : Hist K C) (k : K) (a : C) :
    total_count ops (bump_by ops hist k a) = ops.add (total_count ops hist) a := by
  rw [bump_by]
  by_cases h : k ∈ keys hist
  · rw [if_pos h]
    exact total_count_updateFirst ops hA hC hZ a hist k h
  · rw [if_neg h, total_count_eq_sumC, List.map_append, sumC_append ops hA hC hZ,
      ← total_count_eq_sumC, List.map_singleton]
    have : sumC ops [a] = a := by rw [sumC, List.foldl_cons, List.foldl_nil, hZ]
    rw [this]

theorem total_count_applyOps (ops : CounterOps C)
    (hA : ∀ a b c, ops.add (ops.add a b) c = ops.add a (ops.add b c))
    (hC : ∀ a b, ops.add a b = ops.add b a)
    (hZ : ∀ a, ops.add ops.zero a = a) :
    ∀ (l : List (Op K C)) (hist : Hist K C),
      total_count ops (applyOps ops hist l)
        = ops.add (total_count ops hist) (sumC ops (l.map (amount ops))) := by
  intro l
  induction l with
  | nil =>
    intro hist
    rw [applyOps, List.foldl_nil, List.map_nil, sumC, List.foldl_nil, hC, hZ]
  | cons op l ih =>
    intro hist
    have hstep : total_count ops (applyOp ops hist op)
        = ops.add (total_count ops hist) (amount ops op) := by
      cases op with
      | bump k => exact total_count_bump_by ops hA hC hZ hist k ops.one
      | bumpBy k a => exact total_count_bump_by ops hA hC hZ hist k a
    rw [applyOps, List.foldl_cons, List.map_cons, sumC_cons ops hA hC hZ,
      show List.foldl (applyOp ops) (applyOp ops hist op) l
          = applyOps ops (applyOp ops hist op) l from rfl,
      ih, hstep, hA]

/-! ### Lemmas about `add_assign`, `extend` and `extend_pairs` -/

theorem add_assign_eq_extend_pairs (ops : CounterOps C) (lhs rhs : Hist K C) :
    add_assign ops lhs rhs = extend_pairs ops lhs rhs := rfl

theorem count_extend_pairs_not_mem (ops : CounterOps C) :
    ∀ (pairs : List (K × C)) (lhs : Hist K C) (k : K), k ∉ keys pairs →
      count ops (extend_pairs ops lhs pairs) k = count ops lhs k := by
  intro pairs
  induction pairs with
  | nil => intro lhs k _; rfl
  | cons p rest ih =>
    intro lhs k h
    simp only [keys, List.map_cons, List.mem_cons, not_or] at h
    rw [extend_pairs, List.foldl_cons,
      show List.foldl (fun acc q => bump_by ops acc q.1 q.2) (bump_by ops lhs p.1 p.2) rest
          = extend_pairs ops (bump_by ops lhs p.1 p.2) rest from rfl,
      ih _ k h.2, count_bump_by_ne ops lhs p.2 h.1]

theorem count_add_assign (ops : CounterOps C)
    (hZl : ∀ a, ops.add ops.zero a = a) (hZr : ∀ a, ops.add a ops.zero = a) :
    ∀ (rhs : Hist K C), (keys rhs).Nodup → ∀ (lhs : Hist K C) (k : K),
      count ops (add_assign ops lhs rhs) k
        = ops.add (count ops lhs k) (count ops rhs k) := by
  intro rhs
  induction rhs with
  | nil =>
    intro _ lhs k
    rw [show add_assign ops lhs [] = lhs from rfl, count_nil, hZr]
  | cons p rest ih =>
    intro hnd lhs k
    rw [keys, List.map_cons, List.nodup_cons] at hnd
    have hfold : add_assign ops lhs (p :: rest)
        = add_assign ops (bump_by ops lhs p.1 p.2) rest := rfl
    by_cases h : k = p.1
    · have hnr : k ∉ keys rest := h ▸ hnd.1
      rw [hfold, add_assign_eq_extend_pairs, count_extend_pairs_not_mem ops rest _ k hnr,
        h, count_bump_by_self ops hZl, count_cons, if_pos rfl]
    · rw [hfold, ih hnd.2, count_bump_by_ne ops lhs p.2 h, count_cons,
        if_neg (fun e => h e.symm)]

theorem keys_len_extend_pairs (ops : CounterOps C) :
    ∀ (pairs : List (K × C)) (hist : Hist K C),
      keys hist ⊆ keys (extend_pairs ops hist pairs)
        ∧ len hist ≤ len (extend_pairs ops hist pairs) := by
  intro pairs
  induction pairs with
  | nil => intro hist; exact ⟨fun x hx => hx, Nat.le_refl _⟩
  | cons p rest ih =>
    intro hist
    have hfold : extend_pairs ops hist (p :: rest)
        = extend_pairs ops (bump_by ops hist p.1 p.2) rest := rfl
    rw [hfold]
    exact ⟨fun x hx => (ih _).1 (keys_subset_bump_by ops hist p.1 p.2 hx),
      Nat.le_trans (len_le_bump_by ops hist p.1 p.2) (ih _).2⟩

theorem keys_len_extend (ops : CounterOps C) :
    ∀ (items : List K) (hist : Hist K C),
      keys hist ⊆ keys (extend ops hist items) ∧ len hist ≤ len (extend ops hist items) := by
  intro items
  induction items with
  | nil => intro hist; exact ⟨fun x hx => hx, Nat.le_refl _⟩
  | cons k rest ih =>
    intro hist
    have hfold : extend ops hist (k :: rest) = extend ops (bump ops hist k) rest := rfl
    rw [hfold]
    exact ⟨fun x hx => (ih _).1 (keys_subset_bump_by ops hist k ops.one hx),
      Nat.le_trans (len_le_bump_by ops hist k ops.one) (ih _).2⟩

/-! ### Lemmas about per-entry rescaling (for `normalize`) -/

theorem keys_map_entry (f : C → C) (hist : Hist K C) :
    keys (hist.map (fun p => (p.1, f p.2))) = keys hist := by
  induction hist with
  | nil => rfl
  | cons p rest ih =>
    simp only [List.map_cons, keys]
    exact congrArg (p.1 :: ·) ih

theorem count_map_entry (ops : CounterOps C) (f : C → C) {hist : Hist K C} {k : K}
    (h : k ∈ keys hist) :
    count ops (hist.map (fun p => (p.1, f p.2))) k = f (count ops hist k) := by
  induction hist with
  | nil => cases h
  | cons p rest ih =>
    rw [List.map_cons, count_cons, count_cons]
    by_cases hp : p.1 = k
    · rw [if_pos hp, if_pos hp]
    · have hmem : k ∈ keys rest := by
        simp only [keys, List.map_cons, List.mem_cons] at h
        exact h.resolve_left (fun e => hp e.symm)
      rw [if_neg hp, if_neg hp]
      exact ih hmem

/-! ### The stable sort used by `ranking_with_counts` -/

theorem perm_insertLe (le : α → α → Bool) (x : α) :
    ∀ (l : List α), (insertLe le x l).Perm (x :: l) := by
  intro l
  induction l with
  | nil => exact List.Perm.refl _
  | cons y l ih =>
    rw [insertLe]
    split
    · exact List.Perm.refl _
    · exact (List.Perm.cons y ih).trans (List.Perm.swap x y l)

theorem perm_sortLe (le : α → α → Bool) :
    ∀ (l : List α), (sortLe le l).Perm l := by
  intro l
  induction l with
  | nil => exact List.Perm.refl _
  | cons x l ih =>
    rw [sortLe]
    exact (perm_insertLe le x (sortLe le l)).trans (List.Perm.cons x ih)

theorem mem_insertLe (le : α → α → Bool) (x : α) (l : List α) {z : α}
    (h : z ∈ insertLe le x l) : z = x ∨ z ∈ l := by
  have := (perm_insertLe le x l).mem_iff.mp h
  simpa using this

theorem pairwise_insertLe (le : α → α → Bool)
    (htrans : ∀ a b c, le a b = true → le b c = true → le a c = true)
    (htotal : ∀ a b, le a b = true ∨ le b a = true) (x : α) :
    ∀ (l : List α), l.Pairwise (fun a b => le a b = true) →
      (insertLe le x l).Pairwise (fun a b => le a b = true) := by
  intro l
  induction l with
  | nil => intro _; simp [insertLe]
  | cons y l ih =>
    intro hp
    rw [List.pairwise_cons] at hp
    rw [insertLe]
    split
    · next hx =>
      rw [List.pairwise_cons]
      refine ⟨?_, List.pairwise_cons.mpr hp⟩
      intro z hz
      rcases List.mem_cons.mp hz with h | h
      · exact h ▸ hx
      · exact htrans x y z hx (hp.1 z h)
    · next hx =>
      have hyx : le y x = true := (htotal x y).resolve_left hx
      rw [List.pairwise_cons]
      refine ⟨?_, ih hp.2⟩
      intro z hz
      rcases mem_insertLe le x l hz with h | h
      · exact h ▸ hyx
      · exact hp.1 z h

theorem pairwise_sortLe (le : α → α → Bool)
    (htrans : ∀ a b c, le a b = true → le b c = true → le a c = true)
    (htotal : ∀ a b, le a b = true ∨ le b a = true) :
    ∀ (l : List α), (sortLe le l).Pairwise (fun a b => le a b = true) := by
  intro l
  induction l with
  | nil => simp [sortLe]
  | cons x l ih =>
    rw [sortLe]
    exact pairwise_insertLe le htrans htotal x (sortLe le l) ih

/-! ### The `max_by` scan of `mode`, at the integer instantiation -/

theorem maxStep_nat (m p : K × Nat) :
    maxStep natOps (some m) p = if p.2 < m.2 then some m else some p := by
  by_cases h : p.2 < m.2
  · rw [maxStep, if_pos, if_pos h]
    exact Nat.compare_eq_lt.mpr h
  · rw [maxStep, if_neg, if_neg h]
    rw [show (natOps.pcmp p.2 m.2).getD Ordering.eq = compare p.2 m.2 from rfl]
    exact fun e => h (Nat.compare_eq_lt.mp e)

theorem foldl_maxStep_some (hist : Hist K Nat) :
    ∀ (m0 : K × Nat), ∃ m, hist.foldl (maxStep natOps) (some m0) = some m
      ∧ (m = m0 ∨ m ∈ hist) ∧ m0.2 ≤ m.2 ∧ ∀ p ∈ hist, p.2 ≤ m.2 := by
  induction hist with
  | nil =>
    intro m0
    exact ⟨m0, rfl, Or.inl rfl, Nat.le_refl _, by intro p hp; cases hp⟩
  | cons p rest ih =>
    intro m0
    rw [List.foldl_cons, maxStep_nat]
    by_cases h : p.2 < m0.2
    · rw [if_pos h]
      obtain ⟨m, hm, hmem, hle, hall⟩ := ih m0
      refine ⟨m, hm, ?_, hle, ?_⟩
      · rcases hmem with h1 | h1
        · exact Or.inl h1
        · exact Or.inr (List.mem_cons_of_mem p h1)
      · intro q hq
        rcases List.mem_cons.mp hq with h1 | h1
        · exact h1 ▸ Nat.le_trans (Nat.le_of_lt h) hle
        · exact hall q h1
    · rw [if_neg h]
      obtain ⟨m, hm, hmem, hle, hall⟩ := ih p
      refine ⟨m, hm, ?_, Nat.le_trans (Nat.le_of_not_lt h) hle, ?_⟩
      · rcases hmem with h1 | h1
        · exact Or.inr (h1 ▸ List.mem_cons_self p rest)
        · exact Or.inr (List.mem_cons_of_mem p h1)
      · intro q hq
        rcases List.mem_cons.mp hq with h1 | h1
        · exact h1 ▸ hle
        · exact hall q h1

theorem maxScan_spec {hist : Hist K Nat} (h : hist ≠ []) :
    ∃ m, hist.foldl (maxStep natOps) none = some m ∧ m ∈ hist ∧ ∀ p ∈ hist, p.2 ≤ m.2 := by
  match hist, h with
  | p :: rest, _ =>
    rw [List.foldl_cons, show maxStep natOps none p = some p from rfl]
    obtain ⟨m, hm, hmem, hle, hall⟩ := foldl_maxStep_some rest p
    refine ⟨m, hm, ?_, ?_⟩
    · rcases hmem with h1 | h1
      · exact h1 ▸ List.mem_cons_self p rest
      · exact List.mem_cons_of_mem p h1
    · intro q hq
      rcases List.mem_cons.mp hq with h1 | h1
      · exact h1 ▸ hle
      · exact hall q h1

theorem foldl_maxStep_last (rest : Hist K Nat) :
    ∀ m0 : K × Nat, ∃ m, rest.foldl (maxStep natOps) (some m0) = some m
      ∧ m0.2 ≤ m.2 ∧ (∀ p ∈ rest, p.2 ≤ m.2)
      ∧ ((m = m0 ∧ ∀ p ∈ rest, p.2 < m0.2)
          ∨ ∃ A B, rest = A ++ m :: B ∧ ∀ p ∈ B, p.2 < m.2) := by
  induction rest with
  | nil =>
    intro m0
    exact ⟨m0, rfl, Nat.le_refl _, (by intro p hp; cases hp),
      Or.inl ⟨rfl, (by intro p hp; cases hp)⟩⟩
  | cons p rest ih =>
    intro m0
    rw [List.foldl_cons, maxStep_nat]
    by_cases h : p.2 < m0.2
    · rw [if_pos h]
      obtain ⟨m, hm, hle, hall, hdisj⟩ := ih m0
      refine ⟨m, hm, hle, ?_, ?_⟩
      · intro q hq
        rcases List.mem_cons.mp hq with h1 | h1
        · exact h1 ▸ Nat.le_trans (Nat.le_of_lt h) hle
        · exact hall q h1
      · rcases hdisj with ⟨he, hstrict⟩ | ⟨A, B, hAB, hB⟩
        · refine Or.inl ⟨he, ?_⟩
          intro q hq
          rcases List.mem_cons.mp hq with h1 | h1
          · exact h1 ▸ h
          · exact hstrict q h1
        · exact Or.inr ⟨p :: A, B, by rw [hAB, List.cons_append], hB⟩
    · rw [if_neg h]
      obtain ⟨m, hm, hle, hall, hdisj⟩ := ih p
      refine ⟨m, hm, Nat.le_trans (Nat.le_of_not_lt h) hle, ?_, ?_⟩
      · intro q hq
        rcases List.mem_cons.mp hq with h1 | h1
        · exact h1 ▸ hle
        · exact hall q h1
      · rcases hdisj with ⟨he, hstrict⟩ | ⟨A, B, hAB, hB⟩
        · refine Or.inr ⟨[], rest, by rw [he, List.nil_append], ?_⟩
          rw [he]
          exact hstrict
        · exact Or.inr ⟨p :: A, B, by rw [hAB, List.cons_append], hB⟩

/-- Full characterization of `max_by`'s tie-breaking on a non-empty
entry list: the result is the LAST entry attaining the maximum — the
returned entry splits the list as `A ++ m :: B` with every counter
`≤ m.2` and every counter AFTER `m` strictly below it. -/
theorem mode_last_encountered {hist : Hist K Nat} (h : hist ≠ []) :
    ∃ (m : K × Nat) (A B : Hist K Nat), mode natOps hist = some m.1
      ∧ hist = A ++ m :: B ∧ (∀ p ∈ hist, p.2 ≤ m.2) ∧ ∀ p ∈ B, p.2 < m.2 := by
  match hist, h with
  | q :: rest, _ =>
    obtain ⟨m, hm, hle, hall, hdisj⟩ := foldl_maxStep_last rest q
    have hmode : mode natOps (q :: rest) = some m.1 := by
      rw [mode, List.foldl_cons, show maxStep natOps none q = some q from rfl, hm]
      rfl
    have hhead : ∀ p ∈ q :: rest, p.2 ≤ m.2 := by
      intro p hp
      rcases List.mem_cons.mp hp with h1 | h1
      · exact h1 ▸ hle
      · exact hall p h1
    rcases hdisj with ⟨he, hstrict⟩ | ⟨A, B, hAB, hB⟩
    · refine ⟨m, [], rest, hmode, by rw [he, List.nil_append], hhead, ?_⟩
      rw [he]
      exact hstrict
    · exact ⟨m, q :: A, B, hmode, by rw [hAB, List.cons_append], hhead, hB⟩

theorem mode_last_max {A : Hist K Nat} {c : Nat} (k : K) (h : ∀ p ∈ A, p.2 ≤ c) :
    mode natOps (A ++ [(k, c)]) = some k := by
  rw [mode, List.foldl_append, List.foldl_cons, List.foldl_nil]
  match hA : A with
  | [] => rfl
  | q :: rest =>
    obtain ⟨m, hm, hmem, hall⟩ := maxScan_spec (show (q :: rest : Hist K Nat) ≠ [] by simp)
    rw [hm, maxStep_nat, if_neg (Nat.not_lt.mpr (h m hmem))]
    rfl

/-! ### The weighted-sampling scan, at the integer instantiation -/

/-- Modelled from the spec (the refinement side of the sampling claim):
"walk entries in any order accumulating a running sum of counters; return
the first key at which the running sum exceeds the drawn value". -/
def specFirstKeyAux : Hist K Nat → Nat → Nat → Option K
  | [], _, _ => none
  | (k, w) :: rest, choice, run =>
    if choice < run + w then some k else specFirstKeyAux rest choice (run + w)

/-- Modelled from the spec: the first key (in entry order) at which the
running sum of counters strictly exceeds the drawn value. -/
def specFirstKey (hist : Hist K Nat) (choice : Nat) : Option K :=
  specFirstKeyAux hist choice 0

theorem natOps_pcmp_gt (a b : Nat) : natOps.pcmp a b = some Ordering.gt ↔ b < a := by
  rw [show natOps.pcmp a b = some (compare a b) from rfl]
  exact ⟨fun e => Nat.compare_eq_gt.mp (Option.some_injective _ e),
    fun h => congrArg some (Nat.compare_eq_gt.mpr h)⟩

theorem pickScan_eq_specAux :
    ∀ (hist : Hist K Nat) (choice run : Nat),
      pickScan natOps hist choice run = specFirstKeyAux hist choice run := by
  intro hist
  induction hist with
  | nil => intro choice run; rfl
  | cons p rest ih =>
    intro choice run
    obtain ⟨k, w⟩ := p
    rw [pickScan, specFirstKeyAux]
    by_cases h : choice < run + w
    · rw [if_pos h, if_pos ((natOps_pcmp_gt (natOps.add run w) choice).mpr h)]
    · rw [if_neg h, if_neg (fun e => h ((natOps_pcmp_gt (natOps.add run w) choice).mp e)), ih]
      rfl

theorem pickScan_isSome :
    ∀ (hist : Hist K Nat) (choice run : Nat), run ≤ choice →
      choice < run + (hist.map Prod.snd).sum → (pickScan natOps hist choice run).isSome := by
  intro hist
  induction hist with
  | nil =>
    intro choice run hle hlt
    rw [List.map_nil, List.sum_nil, Nat.add_zero] at hlt
    exact absurd hle (Nat.not_le_of_lt hlt)
  | cons p rest ih =>
    intro choice run hle hlt
    obtain ⟨k, w⟩ := p
    rw [List.map_cons, List.sum_cons] at hlt
    rw [pickScan]
    by_cases h : choice < run + w
    · rw [if_pos ((natOps_pcmp_gt (natOps.add run w) choice).mpr h)]
      rfl
    · rw [if_neg (fun e => h ((natOps_pcmp_gt (natOps.add run w) choice).mp e))]
      exact ih choice (run + w) (Nat.le_of_not_lt h) (by omega)

theorem total_count_nat (hist : Hist K Nat) :
    total_count natOps hist = (hist.map Prod.snd).sum := by
  have aux : ∀ (l : Hist K Nat) (n : Nat),
      l.foldl (fun acc p => natOps.add acc p.2) n = n + (l.map Prod.snd).sum := by
    intro l
    induction l with
    | nil => intro n; simp
    | cons p rest ih =>
      intro n
      rw [List.foldl_cons, ih, List.map_cons, List.sum_cons,
        show natOps.add n p.2 = n + p.2 from rfl]
      omega
  rw [total_count, aux, show natOps.zero = 0 from rfl, Nat.zero_add]

theorem natDescLe_iff (p q : K × Nat) : descLe natOps p q = true ↔ q.2 ≤ p.2 := by
  have hd : descLe natOps p q = (compare q.2 p.2 != Ordering.gt) := rfl
  by_cases h : p.2 < q.2
  · rw [hd, Nat.compare_eq_gt.mpr h]
    constructor
    · intro e; exact absurd e (by decide)
    · intro hle; exact absurd h (Nat.not_lt.mpr hle)
  · have hne : compare q.2 p.2 ≠ Ordering.gt := fun e => h (Nat.compare_eq_gt.mp e)
    rw [hd]
    constructor
    · intro _; exact Nat.le_of_not_lt h
    · intro _
      cases hc : compare q.2 p.2 with
      | lt => rfl
      | eq => rfl
      | gt => exact absurd hc hne

theorem natDescLe_trans (p q r : K × Nat) (h1 : descLe natOps p q = true)
    (h2 : descLe natOps q r = true) : descLe natOps p r = true :=
  (natDescLe_iff p r).mpr
    (Nat.le_trans ((natDescLe_iff q r).mp h2) ((natDescLe_iff p q).mp h1))

theorem natDescLe_total (p q : K × Nat) :
    descLe natOps p q = true ∨ descLe natOps q p = true := by
  rw [natDescLe_iff, natDescLe_iff]
  omega

theorem normLoop_ne_none {total target : Nat} (h : total ≠ 0) :
    ∀ l : Hist K Nat, normLoop total target l ≠ none := by
  intro l
  induction l with
  | nil => exact fun e => Option.noConfusion e
  | cons p rest ih =>
    rw [normLoop, if_neg h]
    cases hrec : normLoop total target rest with
    | none => exact absurd hrec ih
    | some v => exact fun e => Option.noConfusion e

theorem normalizeNatChecked_eq_none_iff (hist : Hist K Nat) (t : Nat) :
    normalizeNatChecked hist t = none ↔ hist ≠ [] ∧ total_count natOps hist = 0 := by
  match hist with
  | [] =>
    rw [show normalizeNatChecked ([] : Hist K Nat) t = some [] from rfl]
    simp
  | p :: rest =>
    show normLoop (total_count natOps (p :: rest)) t (p :: rest) = none ↔ _
    by_cases h0 : total_count natOps (p :: rest) = 0
    · rw [normLoop, if_pos h0]
      simp [h0]
    · exact ⟨fun e => absurd e (normLoop_ne_none h0 (p :: rest)),
        fun hr => absurd hr.2 h0⟩

/-! ## The claims -/

/-- C1: for every histogram built by any finite sequence of `bump` and
`bump_by` operations, `total_count()` equals the sum of all increment
amounts applied, and equals the (left-fold) sum over all present entries'
counters; for an empty histogram it is the Counter zero.  The hypotheses
are the commutative-monoid laws of `+`, which every Rust `CounterType`
(unsigned/signed integer, float restricted to finite values, decimal)
provides. -/
theorem C1_total_count (ops : CounterOps C)
    (hA : ∀ a b c, ops.add (ops.add a b) c = ops.add a (ops.add b c))
    (hC : ∀ a b, ops.add a b = ops.add b a)
    (hZ : ∀ a, ops.add ops.zero a = a) :
    total_count ops ([] : Hist K C) = ops.zero
      ∧ (∀ hist : Hist K C, total_count ops hist = sumC ops (hist.map Prod.snd))
      ∧ ∀ l : List (Op K C),
          total_count ops (applyOps ops [] l) = sumC ops (l.map (amount ops)) := by
  refine ⟨rfl, fun hist => total_count_eq_sumC ops hist, fun l => ?_⟩
  rw [total_count_applyOps ops hA hC hZ l [],
    show total_count ops ([] : Hist K C) = ops.zero from rfl, hZ]

/-- C1 witness: a concrete operation sequence over `usize`-style counters. -/
theorem C1_total_count_witness :
    total_count natOps (applyOps natOps ([] : Hist String Nat)
        [Op.bump "a", Op.bumpBy "b" 3, Op.bumpBy "a" 2, Op.bumpBy "c" 0])
      = sumC natOps
          (List.map (amount natOps)
            [Op.bump "a", Op.bumpBy "b" 3, Op.bumpBy "a" 2, Op.bumpBy "c" 0]) :=
  (C1_total_count natOps (fun a b c => Nat.add_assoc a b c) (fun a b => Nat.add_comm a b)
    (fun a => Nat.zero_add a)).2.2 _

/-- C2: `count` returns the stored counter for a present key (uniquely
stored, as the `HashMap` key-set invariant `Nodup` guarantees) and the
Counter zero for an absent key.  `count` is a pure total function of the
histogram in this embedding, so it neither mutates nor fails. -/
theorem C2_count (ops : CounterOps C) (hist : Hist K C) (k : K) :
    (k ∉ keys hist → count ops hist k = ops.zero)
      ∧ ∀ c : C, (keys hist).Nodup → (k, c) ∈ hist → count ops hist k = c :=
  ⟨fun h => count_of_not_mem ops h, fun _ hnd hmem => count_of_mem ops hnd hmem⟩

/-- C3: `ranking_with_counts()` returns exactly the entries (a
permutation), sorted descending by counter under the comparator that
treats incomparable counters as equal (the `descLe` relation, total in
Lean so it never faults), and `ranking()` is its key projection.  The
hypotheses say the fallback comparator is transitive and total, which
holds for every totally ordered Counter. -/
theorem C3_ranking (ops : CounterOps C)
    (htrans : ∀ p q r : K × C,
      descLe ops p q = true → descLe ops q r = true → descLe ops p r = true)
    (htotal : ∀ p q : K × C, descLe ops p q = true ∨ descLe ops q p = true)
    (hist : Hist K C) :
    (ranking_with_counts ops hist).Perm hist
      ∧ (ranking_with_counts ops hist).Pairwise (fun p q => descLe ops p q = true)
      ∧ ranking ops hist = (ranking_with_counts ops hist).map Prod.fst :=
  ⟨perm_sortLe (descLe ops) hist, pairwise_sortLe (descLe ops) htrans htotal hist, rfl⟩

/-- C3 witness: the doc-test histogram `a:3, b:4, c:1` over `usize`. -/
theorem C3_ranking_witness :
    (ranking_with_counts natOps ([("a", 3), ("b", 4), ("c", 1)] : Hist String Nat)).Perm
        [("a", 3), ("b", 4), ("c", 1)]
      ∧ (ranking_with_counts natOps
          ([("a", 3), ("b", 4), ("c", 1)] : Hist String Nat)).Pairwise
            (fun p q => descLe natOps p q = true)
      ∧ ranking natOps ([("a", 3), ("b", 4), ("c", 1)] : Hist String Nat)
          = (ranking_with_counts natOps
              ([("a", 3), ("b", 4), ("c", 1)] : Hist String Nat)).map Prod.fst :=
  C3_ranking natOps natDescLe_trans natDescLe_total [("a", 3), ("b", 4), ("c", 1)]

/-- C4: merging with `+=` adds counts per key: after `lhs += rhs`, every
key's count is the sum of the old counts, and a key absent from `rhs`
keeps its `lhs` value (the second conjunct, with no algebraic laws
needed).  `hnd` is the `HashMap` invariant that `rhs` stores each key
once; the identity laws hold for every Rust `CounterType` zero. -/
theorem C4_merge (ops : CounterOps C) (lhs rhs : Hist K C)
    (hZl : ∀ a, ops.add ops.zero a = a) (hZr : ∀ a, ops.add a ops.zero = a)
    (hnd : (keys rhs).Nodup) :
    (∀ k, count ops (add_assign ops lhs rhs) k
        = ops.add (count ops lhs k) (count ops rhs k))
      ∧ ∀ k, k ∉ keys rhs → count ops (add_assign ops lhs rhs) k = count ops lhs k := by
  refine ⟨fun k => count_add_assign ops hZl hZr rhs hnd lhs k, fun k h => ?_⟩
  rw [add_assign_eq_extend_pairs]
  exact count_extend_pairs_not_mem ops rhs lhs k h

/-- C4 witness: merging `{a:1, b:2} += {b:3, c:4}` gives `b ↦ 2 + 3`. -/
theorem C4_merge_witness :
    count natOps
        (add_assign natOps ([("a", 1), ("b", 2)] : Hist String Nat) [("b", 3), ("c", 4)]) "b"
      = natOps.add (count natOps ([("a", 1), ("b", 2)] : Hist String Nat) "b")
          (count natOps ([("b", 3), ("c", 4)] : Hist String Nat) "b") :=
  (C4_merge natOps [("a", 1), ("b", 2)] [("b", 3), ("c", 4)]
    (fun a => Nat.zero_add a) (fun a => Nat.add_zero a) (by decide)).1 "b"

/-- C5: `normalize(target_total)` leaves the key set unchanged and maps
every present key's counter to `old * target / old_total` in the
Counter's own arithmetic, with the old total read before any entry is
rescaled (the divisor is `total_count` of the ORIGINAL histogram). -/
theorem C5_normalize (ops : ArithOps C) (hist : Hist K C) (target : C)
    (hne : hist ≠ [])
    (hnz : total_count ops.toCounterOps hist ≠ ops.zero) :
    keys (normalize ops hist target) = keys hist
      ∧ ∀ k, k ∈ keys hist →
          count ops.toCounterOps (normalize ops hist target) k
            = ops.div (ops.mul (count ops.toCounterOps hist k) target)
                (total_count ops.toCounterOps hist) := by
  constructor
  · exact keys_map_entry
      (fun c => ops.div (ops.mul c target) (total_count ops.toCounterOps hist)) hist
  · intro k hk
    exact count_map_entry ops.toCounterOps
      (fun c => ops.div (ops.mul c target) (total_count ops.toCounterOps hist)) hk

/-- C5 witness: the spec's scenario `{a:3, b:4, c:1, d:2}` normalized to
100. -/
theorem C5_normalize_witness :
    keys (normalize natArith ([("a", 3), ("b", 4), ("c", 1), ("d", 2)] : Hist String Nat) 100)
        = keys ([("a", 3), ("b", 4), ("c", 1), ("d", 2)] : Hist String Nat)
      ∧ count natOps
          (normalize natArith
            ([("a", 3), ("b", 4), ("c", 1), ("d", 2)] : Hist String Nat) 100) "b"
        = natArith.div
            (natArith.mul
              (count natOps ([("a", 3), ("b", 4), ("c", 1), ("d", 2)] : Hist String Nat) "b")
              100)
            (total_count natOps ([("a", 3), ("b", 4), ("c", 1), ("d", 2)] : Hist String Nat)) :=
  ⟨(C5_normalize natArith [("a", 3), ("b", 4), ("c", 1), ("d", 2)] 100
      (by decide) (by decide)).1,
   (C5_normalize natArith [("a", 3), ("b", 4), ("c", 1), ("d", 2)] 100
      (by decide) (by decide)).2 "b" (by decide)⟩

/-- C6 counterexample: in `[("a",1),("b",1)]` both counters tie, so the
FIRST encountered maximum in iteration order is `"a"`; the code returns
`"b"` (Rust `max_by` keeps the last of equal elements), refuting the
claim's tie-breaking direction. -/
theorem C6_mode_counterexample :
    mode natOps ([("a", 1), ("b", 1)] : Hist String Nat) = some "b"
      ∧ count natOps ([("a", 1), ("b", 1)] : Hist String Nat) "a"
          = count natOps ([("a", 1), ("b", 1)] : Hist String Nat) "b" := by
  decide

/-- C6 amended: `mode()` of an empty histogram returns `none`; of a
non-empty histogram it returns the key of the LAST encountered maximum in
iteration order: the returned entry `m` splits the entry list as
`A ++ m :: B` where every counter is `≤ m`'s (so `m` attains the maximum)
and every counter AFTER `m` is strictly below it (so no later entry ties
it — `m` is the last maximal entry).  In particular appending a tying
maximal entry makes it the mode. -/
theorem C6_mode_amended :
    mode natOps ([] : Hist K Nat) = none
      ∧ (∀ hist : Hist K Nat, hist ≠ [] →
          ∃ (m : K × Nat) (A B : Hist K Nat), mode natOps hist = some m.1
            ∧ hist = A ++ m :: B ∧ (∀ p ∈ hist, p.2 ≤ m.2) ∧ ∀ p ∈ B, p.2 < m.2)
      ∧ ∀ (A : Hist K Nat) (k : K) (c : Nat),
          (∀ p ∈ A, p.2 ≤ c) → mode natOps (A ++ [(k, c)]) = some k :=
  ⟨rfl, fun _ hne => mode_last_encountered hne, fun _ k c h => mode_last_max k h⟩

/-- The tie-break also bites when the last maximal entry sits in the
MIDDLE of the iteration order: on `a:2, b:2, c:1` the mode is `b` — the
last of the tied maxima — not the first-encountered `a` and not the final
entry `c`. -/
theorem mode_middle_tie :
    mode natOps ([("a", 2), ("b", 2), ("c", 1)] : Hist String Nat) = some "b" := by
  decide

/-- C7 counterexample: `normalize` on an empty histogram succeeds as a
silent no-op — the rescaling loop runs zero times, so no division (and in
particular no division by zero) is ever executed — refuting the claimed
loud, immediate division-by-zero fault. -/
theorem C7_normalize_empty_counterexample :
    normalizeNatChecked ([] : Hist String Nat) 100 = some []
      ∧ normalize natArith ([] : Hist String Nat) 100 = [] :=
  ⟨rfl, rfl⟩

/-- C7 amended: on an empty histogram `normalize` is a silent no-op (it
returns successfully without dividing); for integer counters a
division-by-zero fault occurs exactly when the histogram is NON-empty
with zero total. -/
theorem C7_normalize_empty_amended :
    (∀ t : Nat, normalizeNatChecked ([] : Hist K Nat) t = some [])
      ∧ (∀ (ops : ArithOps C) (t : C), normalize ops ([] : Hist K C) t = [])
      ∧ ∀ (hist : Hist K Nat) (t : Nat),
          normalizeNatChecked hist t = none ↔ hist ≠ [] ∧ total_count natOps hist = 0 :=
  ⟨fun _ => rfl, fun _ _ => rfl, fun hist t => normalizeNatChecked_eq_none_iff hist t⟩

/-- C8 counterexample: `bump_by` with amount zero on a key absent from
the empty histogram materializes the entry `("a", 0)`: `len` becomes 1
while the key's count is zero, so "entry absent" and "count zero" do NOT
coincide. -/
theorem C8_zero_entry_counterexample :
    bump_by natOps ([] : Hist String Nat) "a" 0 = [("a", 0)]
      ∧ len (bump_by natOps ([] : Hist String Nat) "a" 0) = 1
      ∧ count natOps (bump_by natOps ([] : Hist String Nat) "a" 0) "a" = 0
      ∧ "a" ∈ keys (bump_by natOps ([] : Hist String Nat) "a" 0) := by
  decide

/-- C8 amended: an absent entry does read as count zero, but the converse
fails: `bump_by` with ANY amount — zero included — on an absent key
appends an entry (possibly with zero counter) and increments `len`. -/
theorem C8_zero_entry_amended (ops : CounterOps C) (hist : Hist K C) (k : K) (a : C)
    (h : k ∉ keys hist) :
    count ops hist k = ops.zero
      ∧ bump_by ops hist k a = hist ++ [(k, a)]
      ∧ len (bump_by ops hist k a) = len hist + 1
      ∧ k ∈ keys (bump_by ops hist k a) := by
  refine ⟨count_of_not_mem ops h, bump_by_of_not_mem ops a h, ?_, ?_⟩
  · rw [bump_by_of_not_mem ops a h, len, len, List.length_append]
    rfl
  · rw [keys_bump_by, if_neg h]
    exact List.mem_append_right _ (List.mem_singleton.mpr rfl)

/-- C8 witness: the zero-amount bump on the empty histogram. -/
theorem C8_zero_entry_witness :
    count natOps ([] : Hist String Nat) "a" = natOps.zero
      ∧ bump_by natOps ([] : Hist String Nat) "a" 0 = [] ++ [("a", 0)]
      ∧ len (bump_by natOps ([] : Hist String Nat) "a" 0) = len ([] : Hist String Nat) + 1
      ∧ "a" ∈ keys (bump_by natOps ([] : Hist String Nat) "a" 0) :=
  C8_zero_entry_amended natOps [] "a" 0 (by decide)

/-- C9: `pick_random_key` faults on an empty histogram (the failed
assertion, modelled as `none`); on a non-empty histogram it returns the
first key, in entry iteration order, at which the running sum of counters
strictly exceeds the drawn value (`specFirstKey`, written from the spec's
algorithm); and whenever the drawn value lies in `[0, total_count)` the
result is `some _`, i.e. the terminal `panic!` branch is unreachable. -/
theorem C9_pick_random (hist : Hist K Nat) (choice : Nat) :
    pick_random_key natOps ([] : Hist K Nat) choice = none
      ∧ (hist ≠ [] → pick_random_key natOps hist choice = specFirstKey hist choice)
      ∧ (choice < total_count natOps hist → (pick_random_key natOps hist choice).isSome) := by
  refine ⟨rfl, fun hne => ?_, fun hlt => ?_⟩
  · rw [pick_random_key, if_pos (show 0 < len hist from List.length_pos.mpr hne),
      specFirstKey]
    exact pickScan_eq_specAux hist choice 0
  · match hist, hlt with
    | p :: rest, hlt =>
      rw [pick_random_key, if_pos (by simp [len])]
      apply pickScan_isSome (p :: rest) choice 0 (Nat.zero_le _)
      rw [total_count_nat] at hlt
      omega

/-- C10: no public operation removes a key: `bump_by`, `bump`, both
`extend` forms and `+=` only grow the key list (so `len` never
decreases), and `normalize` leaves the key list and `len` exactly
unchanged. -/
theorem C10_no_key_removed (ops : CounterOps C) (aops : ArithOps C) :
    (∀ (hist : Hist K C) (k : K) (a : C),
        keys hist ⊆ keys (bump_by ops hist k a) ∧ len hist ≤ len (bump_by ops hist k a))
      ∧ (∀ (hist : Hist K C) (k : K),
          keys hist ⊆ keys (bump ops hist k) ∧ len hist ≤ len (bump ops hist k))
      ∧ (∀ (hist : Hist K C) (items : List K),
          keys hist ⊆ keys (extend ops hist items) ∧ len hist ≤ len (extend ops hist items))
      ∧ (∀ (hist : Hist K C) (pairs : List (K × C)),
          keys hist ⊆ keys (extend_pairs ops hist pairs)
            ∧ len hist ≤ len (extend_pairs ops hist pairs))
      ∧ (∀ (lhs rhs : Hist K C),
          keys lhs ⊆ keys (add_assign ops lhs rhs) ∧ len lhs ≤ len (add_assign ops lhs rhs))
      ∧ ∀ (hist : Hist K C) (t : C),
          keys (normalize aops hist t) = keys hist ∧ len (normalize aops hist t) = len hist :=
  ⟨fun hist k a => ⟨keys_subset_bump_by ops hist k a, len_le_bump_by ops hist k a⟩,
   fun hist k => ⟨keys_subset_bump_by ops hist k ops.one, len_le_bump_by ops hist k ops.one⟩,
   fun hist items => keys_len_extend ops items hist,
   fun hist pairs => keys_len_extend_pairs ops pairs hist,
   fun lhs rhs => keys_len_extend_pairs ops rhs lhs,
   fun hist t =>
     ⟨keys_map_entry (fun c => aops.div (aops.mul c t) (total_count aops.toCounterOps hist))
        hist,
      (List.length_map _ _ :)⟩⟩
/-- The doc-test ranking `a:3, b:4, c:1` sorts to `b, a, c`, as lib.rs
line 32 asserts. -/
theorem ranking_doc_test :
    ranking_with_counts natOps ([("a", 3), ("b", 4), ("c", 1)] : Hist String Nat)
        = [("b", 4), ("a", 3), ("c", 1)]
      ∧ ranking natOps ([("a", 3), ("b", 4), ("c", 1)] : Hist String Nat) = ["b", "a", "c"] := by
  decide

/-- A nonempty zero-total integer histogram does hit the division by
zero: the fault is real, it is just not reached from an empty histogram. -/
theorem normalize_zero_total_faults :
    normalizeNatChecked ([("a", 0)] : Hist String Nat) 100 = none := by
  decide

end HashHist
